import Mathlib

/-!
Shallow embedding of the regex-compiler core of the Lesk repository
(crate `relesk`), together with theorems settling the specification
claims about it.  Every definition below is translated from the Rust
source file and line range cited in its doc comment; machine integers
are modelled as `Nat` with explicit truncation (`% 2 ^ w`) exactly where
the Rust types truncate.
-/

namespace Lesk

/-! ## Positions (src/relesk/position.rs)

A `Position` is a tagged 64-bit word.  We model the word as a `Nat`
(always below `2 ^ 64` for values the program builds) and the bit masks
of position.rs as constants.  A `PositionSet` (`BTreeSet<Position>`) is
modelled as the list of member words in increasing order.  -/

/-- Mask `INDEX` of position.rs: low 32 bits, the regex index (or the
accepted subpattern id for accept positions). -/
def POS_INDEX : Nat := 2 ^ 32 - 1

/-- Flag `ACCEPT` of position.rs: bit 55, set on accepting positions. -/
def POS_ACCEPT : Nat := 2 ^ 55

/-- Flag `GREEDY` of position.rs: bit 53. -/
def POS_GREEDY : Nat := 2 ^ 53

/-- Method `Position::is_accept` (position.rs:200-202): `(self.0 & ACCEPT) != 0`. -/
def pos_is_accept (p : Nat) : Bool := (p &&& POS_ACCEPT) != 0

/-- Method `Position::accepts` (position.rs:169-171): `(self.0 & INDEX)`, the low
32 bits read as the accepted subpattern id. -/
def pos_accepts (p : Nat) : Nat := p &&& POS_INDEX

/-- Method `Position::lazy` (position.rs:180-182): the top byte, `self.0 >> 56`. -/
def pos_lazy (p : Nat) : Nat := p >>> 56

/-! ## trim_lazy (src/relesk/parser.rs:2138-2230)

The free function `trim_lazy(positions: &mut PositionSet)` is the
lazy-position trimming pass invoked by `State::trim_lazy` (state.rs:88-90)
and on every move of `compile_transition` (parser.rs:1882).  In the
source, the entire trimming algorithm inside the function body sits in a
block comment (parser.rs:2155-2224); outside comments the body only
contains debug printing guarded by `#[cfg(feature = "DEBUG")]`.  The
function therefore returns its argument unchanged, which the identity
below embeds. -/

/-- Function `trim_lazy` (parser.rs:2138-2230): the position set is returned
unchanged because the whole trimming algorithm is commented out. -/
def trim_lazy (positions : List Nat) : List Nat := positions

/-- Number of accepting positions with nonzero accept id in a set. -/
def nonzeroAcceptCount (positions : List Nat) : Nat :=
  (positions.filter (fun p => pos_is_accept p && pos_accepts p != 0)).length

/-! ## The accept/redo resolution loop of compile_transition
(src/relesk/parser.rs:1611-1631)

`Parser::compile_transition` walks the positions of a state in
`BTreeSet` order.  For every accepting position `k` it executes

    if state_ref.accept == 0 || k.accepts() < state_ref.accept {
      state_ref.accept = k.accepts();
    }
    if k.accepts() == 0 { state_ref.redo = true; }

starting from the fresh state's `accept = 0`, `redo = false`
(state.rs `State::default`).  Non-accepting positions do not touch the
two fields.  The fold below is that loop. -/

/-- The accept/redo update loop of `compile_transition`
(parser.rs:1618-1631) folded over the state's positions in set order,
threading the `accept` and `redo` fields. -/
def resolveAcceptRedo : List Nat → Nat → Bool → Nat × Bool
  | [], accept, redo => (accept, redo)
  | k :: rest, accept, redo =>
    if pos_is_accept k then
      resolveAcceptRedo rest
        (if accept = 0 ∨ pos_accepts k < accept then pos_accepts k else accept)
        (if pos_accepts k = 0 then true else redo)
    else
      resolveAcceptRedo rest accept redo

/-- The minimum nonzero accept id among the accepting positions of a
set, `0` when there is none (the quantity the specification says the
state's `accept` field equals). -/
def minNonzeroAccept : List Nat → Nat
  | [] => 0
  | k :: rest =>
    let m := minNonzeroAccept rest
    if pos_is_accept k = true ∧ pos_accepts k ≠ 0 then
      if m = 0 then pos_accepts k else min (pos_accepts k) m
    else m

/-- True when the set has no accepting position with accept id `0`. -/
def zeroAcceptFree (l : List Nat) : Prop :=
  ∀ k ∈ l, ¬(pos_is_accept k = true ∧ pos_accepts k = 0)

instance (l : List Nat) : Decidable (zeroAcceptFree l) := by
  unfold zeroAcceptFree; infer_instance

/-- True when no accepting position with accept id `0` occurs after (in
set order) an accepting position with nonzero id. -/
def noZeroAfterNonzero : List Nat → Prop
  | [] => True
  | k :: rest =>
    if pos_is_accept k = true ∧ pos_accepts k ≠ 0 then zeroAcceptFree rest
    else noZeroAfterNonzero rest

instance decNoZeroAfterNonzero : (l : List Nat) → Decidable (noZeroAfterNonzero l)
  | [] => .isTrue trivial
  | k :: rest =>
    if h : pos_is_accept k = true ∧ pos_accepts k ≠ 0 then by
      unfold noZeroAfterNonzero; rw [if_pos h]; infer_instance
    else by
      unfold noZeroAfterNonzero; rw [if_neg h]
      exact decNoZeroAfterNonzero rest

/-! ## Parser::at (src/relesk/parser.rs:157-166) -/

/-- Method `Parser::at` (parser.rs:159-166): returns the byte of the regex at
`idx`, or the NUL character `Char(0)` when `idx` is past the end. -/
def parser_at (regex : List Nat) (idx : Nat) : Nat :=
  if idx ≥ regex.length then 0 else regex.getD idx 0

/-! ## The bounded-repetition overflow guard
(src/relesk/parser.rs:827-830 and src/relesk/limits.rs:10)

In `parse_iterated`, a `{n,m}` suffix with `m > 0` runs

    if group.iteration * m > MAX_ITER { RegexError::ExceedsLimits(..) }

where `group.iteration : Iteration16 = u16` (group.rs:64, mod.rs:34),
`m : Iteration16` and `MAX_ITER : Iteration16 = u16::MAX` (limits.rs:10).
The product is computed at u16 width, so it wraps modulo `2 ^ 16`
(release profile; the debug profile panics on overflow instead). -/

/-- Constant `MAX_ITER` (limits.rs:10): `u16::MAX`. -/
def MAX_ITER : Nat := 65535

/-- The guard `group.iteration * m > MAX_ITER` of parse_iterated
(parser.rs:828), with the `u16 * u16` product wrapping modulo `2 ^ 16`
as in the compiled (release) program. -/
def iterationOverflowGuard (iteration m : Nat) : Bool :=
  (iteration * m) % 2 ^ 16 > MAX_ITER

/-! ## The subset-construction worklist of Parser::compile
(src/relesk/parser.rs:1415-1608, src/relesk/state.rs:107-131,
src/valuecell.rs:101-123)

`Parser::compile` keeps a table `HashMap<VcPositionSet, VcState>`
(parser.rs:1439).  A `VcPositionSet` is a `ValueCell`, i.e. an
`Rc<RefCell<PositionSet>>`, and `ValueCell`'s `Hash`/`PartialEq`
instances use the `Rc` *pointer*, not the contents (valuecell.rs:101-123).
We therefore model every `ValueCell` by a numeric cell id (its pointer)
plus a separate contents map.  The model below embeds:

  * states as created by the loop (`MState`): the cell id of their
    position set and their `next` pointer (state.rs `State`);
  * the table as an association list from cell id to state id, seeded
    with the start state's own cell (parser.rs:1456);
  * the per-move resolution (parser.rs:1556-1565): look the move's cell
    up in the table; on a vacant entry create a state holding that cell;
    then, in both the occupied and the vacant case, run
    `last_state.next = Some(target); last_state = target`
    (parser.rs:1564-1565);
  * the loop driver `StateNextIterator` (state.rs:119-131), whose
    `next()` clones the current state and reads its `next` pointer
    *before* the loop body processes the state.

What moves a state resolves is computed by `compile_transition` from the
cell's position contents; the model takes that resolution as a
parameter `movesOf` from the cell id of a state's position set to the
cell ids of its nonempty moves, instantiated below from hand-traced runs
of `compile_transition` on concrete regexes. -/

/-- A compiler-created DFA state (state.rs `State`), reduced to the two
fields the worklist of `Parser::compile` manipulates: the id of the
`ValueCell` holding its position set, and the `next` pointer of the
state chain. -/
structure MState where
  posCell : Nat
  next : Option Nat
deriving DecidableEq, Repr, Inhabited

/-- The mutable state of the `Parser::compile` worklist: the states in
creation order (the start state is state 0), the state table as an
association list from position-cell id to state id (pointer-keyed, as
`ValueCell`'s `Hash`/`PartialEq` are), the `last_state` cursor, and the
list of states the loop body has processed, in order. -/
structure CompileSt where
  states : List MState
  table : List (Nat × Nat)
  lastState : Nat
  processed : List Nat
deriving DecidableEq, Repr

/-- Table lookup by cell id: the pointer-equality lookup that
`table.entry(positions_set.clone())` performs under `ValueCell`'s
`PartialEq` (valuecell.rs:113-123). -/
def tableLookup (table : List (Nat × Nat)) (cell : Nat) : Option Nat :=
  (table.find? (fun e => e.fst == cell)).map Prod.snd

/-- Overwrite the `next` pointer of state `i`. -/
def setNext (states : List MState) (i : Nat) (t : Option Nat) : List MState :=
  states.set i { states.getD i default with next := t }

/-- Resolution of one nonempty move (parser.rs:1556-1565): find or
create the target state for the move's position-set cell, then append it
to the chain (`last_state.next = Some(target); last_state = target`,
executed after both match arms). -/
def resolveMove (st : CompileSt) (cell : Nat) : CompileSt :=
  let found := tableLookup st.table cell
  let target := found.getD st.states.length
  let st1 :=
    match found with
    | some _ => st
    | none =>
        { st with
          states := st.states ++ [MState.mk cell none]
          table := (cell, st.states.length) :: st.table }
  { st1 with
    states := setNext st1.states st1.lastState (some target)
    lastState := target }

/-- The loop body of `Parser::compile` for one state (parser.rs:1462-1601)
restricted to the chain/table bookkeeping: resolve each nonempty move of
the state in order. -/
def processState (movesOf : Nat → List Nat) (st : CompileSt) (s : Nat) :
    CompileSt :=
  (movesOf (st.states.getD s default).posCell).foldl resolveMove
    { st with processed := st.processed ++ [s] }

/-- The `for state in StateNextIterator::new(start)` loop of
`Parser::compile` (parser.rs:1462) driven by `StateNextIterator::next`
(state.rs:122-130): the iterator reads the current state's `next`
pointer when it yields the state, before the body processes it.  `fuel`
bounds the number of iterations of the model only; the theorems below
hold with any sufficient fuel. -/
def runLoop (movesOf : Nat → List Nat) : Nat → CompileSt → Option Nat →
    CompileSt
  | 0, st, _ => st
  | _ + 1, st, none => st
  | fuel + 1, st, some s =>
      let snapshot := (st.states.getD s default).next
      runLoop movesOf fuel (processState movesOf st s) snapshot

/-- Initial worklist state of `Parser::compile`: only the start state
(its positions live in cell 0), the table seeded with the start state's
cell (parser.rs:1456), `last_state = start` (parser.rs:1461). -/
def compileInit : CompileSt := ⟨[⟨0, none⟩], [(0, 0)], 0, []⟩

/-- A full run of the `Parser::compile` worklist. -/
def compileRun (movesOf : Nat → List Nat) (fuel : Nat) : CompileSt :=
  runLoop movesOf fuel compileInit (some 0)

/-- The state chain from state `s` following `next` pointers (the walk
order of `StateNextIterator`), cut off by `fuel`. -/
def chainFrom (states : List MState) : Nat → Nat → List Nat
  | 0, _ => []
  | fuel + 1, s =>
      s ::
        match (states.getD s default).next with
        | none => []
        | some t => chainFrom states fuel t

/-! ### Concrete instantiation: regex `a*`  (claim C1)

Hand trace of parser output for the regex `a*` with default options.
Parsing yields the greedy position `0!` (`Position(0).set_greedy(true)`,
code `2 ^ 53`) and the accept position of subpattern 1 (code
`2 ^ 55 + 1`); `parse` (parser.rs:378-382) leaves

  * `start_positions = { 0!, accept 1 }`  — one cell, the start state's;
  * `follow_positions_map[0] = { 0!, accept 1 }` — a different cell with
    set-equal contents (first positions looped back by `*` plus the
    appended accept).

`compile_transition` on the start state produces the single move
`({a}, follow_positions_map[0])`, and on the state owning that cell the
same single move again. -/

/-- Position-set contents of the two cells of the `a*` run: cell 0 is
the start state's `start_positions`, cell 1 is
`follow_positions_map[0]`; both hold the greedy position `0!`
(`2 ^ 53`) and the accept position of subpattern 1 (`2 ^ 55 + 1`). -/
def astarCellContents : Nat → List Nat
  | 0 => [2 ^ 53, 2 ^ 55 + 1]
  | 1 => [2 ^ 53, 2 ^ 55 + 1]
  | _ + 2 => []

/-- Moves resolved by `compile_transition` for the `a*` run, by the cell
id of the state's position set: from either position set the single
nonempty move goes to `follow_positions_map[0]`, i.e. cell 1. -/
def astarMoves : Nat → List Nat
  | 0 => [1]
  | 1 => [1]
  | _ + 2 => []

/-! ### Concrete instantiation: regex `ab*`  (claim C2)

Hand trace of parser output for the regex `ab*` with default options
(the `*` keeps it off the string-literal shortcut): cell 0 holds
`start_positions = { 0 }` (the `a` position), cell 1 holds
`follow_positions_map[0] = { 1! }` (the greedy `b` position), cell 2
holds `follow_positions_map[1] = { 1! }` (the star's loop entry, a
separate cell with the same contents).  `compile_transition` resolves
one move per state: on `a` from the start cell to cell 1, and on `b`
from cell 1 to cell 2. -/

/-- Moves resolved by `compile_transition` for the `ab*` run, by cell id
of the state's position set. -/
def abstarMoves : Nat → List Nat
  | 0 => [1]
  | 1 => [2]
  | _ + 2 => []

/-! ## Opcodes (src/relesk/opcode.rs)

A 32-bit instruction word, modelled as a `Nat` below `2 ^ 32`.  The
constants are those of `opcode.rs::bitmasks`. -/

/-- Constant `bitmasks::HALT` (opcode.rs:88). -/
def HALT : Nat := 0x00FFFFFF

/-- Constant `bitmasks::HEAD` (opcode.rs:89). -/
def HEAD : Nat := 0xFB000000

/-- Constant `bitmasks::TAIL` (opcode.rs:90). -/
def TAIL : Nat := 0xFC000000

/-- Constant `bitmasks::REDO` (opcode.rs:91). -/
def REDO : Nat := 0xFD000000

/-- Constant `bitmasks::TAKE` (opcode.rs:92). -/
def TAKE : Nat := 0xFE000000

/-- Constant `bitmasks::LONG` (opcode.rs:93): the LONG/GOTO opcode byte mask. -/
def LONG : Nat := 0xFF000000

/-- Constant `bitmasks::LONG_MARKER` (opcode.rs:98): the 16-bit LONG marker. -/
def LONG_MARKER : Nat := 0xFFFE

/-- Constant `bitmasks::LONG_INDEX` (opcode.rs:113): low three bytes. -/
def LONG_INDEX : Nat := 0xFFFFFF

/-- Byte 3 of a word as `Opcode::is_goto` reads it (opcode.rs:186-188):
`(w & BYTE3) >> BYTE3_SHIFT`. -/
def byte3 (w : Nat) : Nat := (w &&& 0x00FF0000) >>> 16

/-- Byte 4 (the high byte) of a word as `Opcode::is_goto` reads it
(opcode.rs:186-188): `(w & BYTE4) >> BYTE4_SHIFT`. -/
def byte4 (w : Nat) : Nat := (w &&& 0xFF000000) >>> 24

/-- Method `Opcode::is_goto` (opcode.rs:186-188): byte 3 at least byte 4. -/
def is_goto (w : Nat) : Bool := byte4 w ≤ byte3 w

/-- Method `Char::is_meta` (character.rs:195-198): strictly above
`Meta::MIN = 0x100`. -/
def char_is_meta (c : Nat) : Bool := 0x100 < c

/-- Function `opcode_long` (opcode.rs:268-271): ORs the masked index with
`LONG_MARKER` (the 16-bit marker 0xFFFE), not with the `LONG` opcode
byte; payload documented as at most `0xFEFFFF`. -/
def opcode_long (index : Nat) : Nat := LONG_MARKER ||| (index &&& LONG_INDEX)

/-- Function `opcode_take` (opcode.rs:273-276); payload documented as at most
`0xFDFFFF`. -/
def opcode_take (index : Nat) : Nat := TAKE ||| (index &&& LONG_INDEX)

/-- Function `opcode_tail` (opcode.rs:279-282); payload documented as at most
`0xFAFFFF`. -/
def opcode_tail (index : Nat) : Nat := TAIL ||| (index &&& LONG_INDEX)

/-- Function `opcode_head` (opcode.rs:284-287); payload documented as at most
`0xFAFFFF`. -/
def opcode_head (index : Nat) : Nat := HEAD ||| (index &&& LONG_INDEX)

/-- Function `opcode_goto` (opcode.rs:289-299): for a meta `lo` the meta's low
byte lands in byte 4 (the `u32` shift truncates modulo `2 ^ 32`);
otherwise `lo` is stored in byte 4 and `hi` in byte 3, ORed with the
index. -/
def opcode_goto (lo hi index : Nat) : Nat :=
  if char_is_meta lo then ((lo <<< 24) % 2 ^ 32) ||| index
  else (((lo <<< 24) % 2 ^ 32) ||| ((hi <<< 16) % 2 ^ 32)) ||| index

/-! ## Encoder (src/relesk/compiler.rs:856-1071) -/

/-- Constant `GOTO_MAX_IDX` (limits.rs:21). -/
def GOTO_MAX_IDX : Nat := 0xFEFFFF

/-- Function `valid_goto_index` (compiler.rs:1602-1604); the first counting pass
of `encode_dfa` raises `ExceedsLimits` when the running opcode count
fails this test (compiler.rs:924-927). -/
def valid_goto_index (index : Nat) : Bool := index ≤ GOTO_MAX_IDX

/-- The trigger of the second counting pass of `encode_dfa`
(compiler.rs:931): `self.opcode_count > bitmasks::LONG`, where
`bitmasks::LONG = 0xFF000000` is the LONG opcode byte mask. -/
def second_pass_runs (opcode_count : Nat) : Bool := LONG < opcode_count

/-- The lookahead emission loop of `encode_dfa` (compiler.rs:1003-1010):
per state, after the REDO/TAKE word, it iterates over
`[&state.tails, &state.heads]` in that order and pushes
`opcode_tail(*i)` for every member of both sets. -/
def encode_lookahead_words (tails heads : List Nat) : List Nat :=
  tails.map (fun i => opcode_tail i) ++ heads.map (fun i => opcode_tail i)

/-! ## Character sets (src/relesk/chars.rs)

`Chars` is a 320-bit bitset stored as five u64 words (chars.rs:136-139):
words 0-3 cover the bytes 0-255, word 4 the meta range.  Each word is
modelled as a `Nat`; a word of a set the program builds is below
`2 ^ 64`, recorded by `Chars.wf`. -/

/-- Rust `struct Chars { b: [u64; 5] }` (chars.rs:136-139). -/
structure Chars where
  b0 : Nat
  b1 : Nat
  b2 : Nat
  b3 : Nat
  b4 : Nat
deriving DecidableEq, Repr

/-- The word `self.b[i]` selected by `(c.0 >> 6)` in chars.rs.  An index
past 4 is an out-of-bounds panic in Rust and never occurs for the
program's characters (`c ≤ 0x10D`, so the index is 0-4); the model
returns 0 there. -/
def Chars.word (s : Chars) : Nat → Nat
  | 0 => s.b0
  | 1 => s.b1
  | 2 => s.b2
  | 3 => s.b3
  | 4 => s.b4
  | _ + 5 => 0

/-- Method `Chars::contains` (chars.rs:198-200):
`(self.b[(c.0 >> 6) as usize] & (1 << (c.0 & 0x3F))) != 0`. -/
def Chars.contains (s : Chars) (c : Nat) : Bool :=
  (s.word (c >>> 6) &&& (1 <<< (c &&& 0x3F))) != 0

/-- The Rust u64 complement `!x`, for `x < 2 ^ 64`. -/
def notU64 (x : Nat) : Nat := (2 ^ 64 - 1) ^^^ x

/-- Impl `SubAssign for Chars` (chars.rs:307-315): wordwise
`self.b[i] &= !c.b[i]`. -/
def Chars.subAssign (s c : Chars) : Chars :=
  ⟨s.b0 &&& notU64 c.b0, s.b1 &&& notU64 c.b1, s.b2 &&& notU64 c.b2,
    s.b3 &&& notU64 c.b3, s.b4 &&& notU64 c.b4⟩

/-- Method `Chars::is_empty` (chars.rs:173-179). -/
def Chars.is_empty (s : Chars) : Bool :=
  s.b0 == 0 && s.b1 == 0 && s.b2 == 0 && s.b3 == 0 && s.b4 == 0

/-- Method `Chars::is_subset` (chars.rs:193-196):
`return (*c - *self).is_empty();` — the argument minus the receiver. -/
def Chars.is_subset (s c : Chars) : Bool := (Chars.subAssign c s).is_empty

/-- Well-formedness of a modelled `Chars`: every word fits in a u64. -/
def Chars.wf (s : Chars) : Prop :=
  s.b0 < 2 ^ 64 ∧ s.b1 < 2 ^ 64 ∧ s.b2 < 2 ^ 64 ∧ s.b3 < 2 ^ 64 ∧
    s.b4 < 2 ^ 64

end Lesk

namespace Lesk

/-! # Theorems -/

/-- C10: for every index at or past the end of the regex byte sequence,
`Parser::at` returns the NUL character `Char(0)`; reading the pattern is
total. -/
theorem parser_at_past_end_is_nul (regex : List Nat) (idx : Nat)
    (h : idx ≥ regex.length) : parser_at regex idx = 0 := by
  unfold parser_at
  simp [h]

/-- Witness for `parser_at_past_end_is_nul` at the concrete regex
`"ab"` and index 5. -/
theorem parser_at_past_end_is_nul_witness :
    5 ≥ [97, 98].length ∧ parser_at [97, 98] 5 = 0 :=
  ⟨by decide, parser_at_past_end_is_nul [97, 98] 5 (by decide)⟩

/-- C5 (code evaluation): the `{n,m}` overflow guard of `parse_iterated`
can never fire: the u16 product `group.iteration * m` wraps modulo
`2 ^ 16`, so it is never greater than `MAX_ITER = 65535`.  In particular
for the nested repetition `a{1000}{1000}` (second `{1000}` reached with
`group.iteration = 1000`, `m = 1000`) the guard is false although the
mathematical product `1000 * 1000` exceeds `MAX_ITER`, so
`ExceedsLimits` is not raised there. -/
theorem iteration_guard_never_fires :
    iterationOverflowGuard 1000 1000 = false ∧
    1000 * 1000 > MAX_ITER ∧
    ∀ iteration m : Nat, iterationOverflowGuard iteration m = false := by
  refine ⟨by decide, by decide, ?_⟩
  intro iteration m
  have h : (iteration * m) % 2 ^ 16 < 2 ^ 16 := Nat.mod_lt _ (by decide)
  simp only [iterationOverflowGuard, MAX_ITER, gt_iff_lt, decide_eq_false_iff_not,
    not_lt]
  omega

/-- C1 (code evaluation): on the regex `a*` the start state's position
set (cell 0) and the position set of the single move
(`follow_positions_map[0]`, cell 1) are equal as sets of positions, yet
the state-table lookup — keyed by `ValueCell` pointer equality
(valuecell.rs:101-123) — misses, so `Parser::compile` creates a second
state: the run ends with two distinct states, one holding cell 0 and
one holding cell 1, whose position sets are equal. -/
theorem astar_creates_two_states_with_equal_positions :
    astarCellContents 0 = astarCellContents 1 ∧
    (compileRun astarMoves 8).states =
      [MState.mk 0 (some 1), MState.mk 1 none] := by
  exact ⟨rfl, rfl⟩

/-- C2 (code evaluation): on the regex `ab*` the worklist loop of
`Parser::compile` processes only the start state and stops:
`StateNextIterator::next` reads `start.next` (still `None`) before the
loop body appends the newly created state 1 to the chain, so the loop
ends with the `next` chain `[0, 1]` not exhausted — state 1 is created,
chained, and never processed (its transitions are never resolved). -/
theorem abstar_walk_stops_before_chain_end :
    (compileRun abstarMoves 8).processed = [0] ∧
    (compileRun abstarMoves 8).states.length = 2 ∧
    chainFrom (compileRun abstarMoves 8).states 8 0 = [0, 1] := by
  exact ⟨rfl, rfl, rfl⟩

/-- C3 (code evaluation): `trim_lazy` leaves every position set
unchanged (its body is commented out), so a set holding the two
accepting positions with accept ids 1 and 2 still holds both of them
afterwards, against the claim that only the earliest-matching accept
survives. -/
theorem trim_lazy_keeps_second_accept :
    trim_lazy [2 ^ 55 + 1, 2 ^ 55 + 2] = [2 ^ 55 + 1, 2 ^ 55 + 2] ∧
    nonzeroAcceptCount (trim_lazy [2 ^ 55 + 1, 2 ^ 55 + 2]) = 2 := by
  constructor
  · rfl
  · decide

/-- Helper for the accept fold: once the running `accept` is nonzero and
the rest of the set has no zero-id accepting position, the fold computes
the minimum of the running value and the minimum nonzero accept of the
rest. -/
theorem resolveAcceptRedo_fst_of_zeroAcceptFree (l : List Nat) :
    ∀ (a : Nat) (r : Bool), zeroAcceptFree l → a ≠ 0 →
    (resolveAcceptRedo l a r).1 =
      if minNonzeroAccept l = 0 then a else min a (minNonzeroAccept l) := by
  induction l with
  | nil =>
    intro a r _ _
    simp [resolveAcceptRedo, minNonzeroAccept]
  | cons k rest ih =>
    intro a r hfree ha
    have hfree' : zeroAcceptFree rest := fun p hp => hfree p (by simp [hp])
    have hk := hfree k (by simp)
    by_cases hacc : pos_is_accept k = true
    · have hb : pos_accepts k ≠ 0 := fun h0 => hk ⟨hacc, h0⟩
      have ha' : (if a = 0 ∨ pos_accepts k < a then pos_accepts k else a) ≠ 0 := by
        split_ifs <;> omega
      rw [resolveAcceptRedo, if_pos hacc, ih _ _ hfree' ha',
        minNonzeroAccept]
      simp only [if_pos (And.intro hacc hb)]
      split_ifs <;> omega
    · rw [resolveAcceptRedo, if_neg hacc, ih _ _ hfree' ha, minNonzeroAccept]
      simp only [if_neg (fun h : _ ∧ _ => hacc h.1)]

/-- Helper for the accept fold started at `accept = 0`, as
`compile_transition` does on a fresh state: under the
no-zero-after-nonzero ordering condition the fold returns the minimum
nonzero accept id. -/
theorem resolveAcceptRedo_fst (l : List Nat) :
    ∀ (r : Bool), noZeroAfterNonzero l →
    (resolveAcceptRedo l 0 r).1 = minNonzeroAccept l := by
  induction l with
  | nil =>
    intro r _
    simp [resolveAcceptRedo, minNonzeroAccept]
  | cons k rest ih =>
    intro r h
    unfold noZeroAfterNonzero at h
    by_cases hcond : pos_is_accept k = true ∧ pos_accepts k ≠ 0
    · rw [if_pos hcond] at h
      rw [resolveAcceptRedo, if_pos hcond.1]
      have hzero : (0 = 0 ∨ pos_accepts k < 0) := Or.inl rfl
      rw [if_pos hzero,
        resolveAcceptRedo_fst_of_zeroAcceptFree rest _ _ h hcond.2,
        minNonzeroAccept]
      simp only [if_pos hcond]
    · rw [if_neg hcond] at h
      by_cases hacc : pos_is_accept k = true
      · have hz : pos_accepts k = 0 := by
          by_contra hz
          exact hcond ⟨hacc, hz⟩
        rw [resolveAcceptRedo, if_pos hacc]
        rw [if_pos (Or.inl rfl), hz, minNonzeroAccept]
        simp only [if_neg hcond]
        exact ih _ h
      · rw [resolveAcceptRedo, if_neg hacc, minNonzeroAccept]
        simp only [if_neg hcond]
        exact ih _ h

/-- Helper for the redo flag: the fold sets `redo` exactly when the
incoming flag was set or some accepting position has accept id `0`. -/
theorem resolveAcceptRedo_snd (l : List Nat) :
    ∀ (a : Nat) (r : Bool),
    (resolveAcceptRedo l a r).2 =
      (r || l.any (fun k => pos_is_accept k && pos_accepts k == 0)) := by
  induction l with
  | nil =>
    intro a r
    simp [resolveAcceptRedo]
  | cons k rest ih =>
    intro a r
    by_cases hacc : pos_is_accept k = true
    · by_cases hz : pos_accepts k = 0
      · rw [resolveAcceptRedo, if_pos hacc, if_pos hz, ih]
        simp [hacc, hz]
      · rw [resolveAcceptRedo, if_pos hacc, if_neg hz, ih]
        have hb : (pos_accepts k == 0) = false := by
          simpa using hz
        simp [hacc, hb]
    · rw [resolveAcceptRedo, if_neg hacc, ih]
      simp [hacc]

/-- C4 counterexample: the claim fails as stated.  On the position set
holding the accepting position of subpattern 5 (`2 ^ 55 + 5`) followed
by a lazy-tagged redo position (`2 ^ 56 + 2 ^ 55`, accept id 0, lazy
byte 1, sorting after the first in the position total order), the loop
of `compile_transition` ends with `accept = 0` although the minimum
nonzero accept id over the accepting positions is 5: the later zero id
overwrites the nonzero minimum because `k.accepts() < state.accept`
holds for it. -/
theorem resolveAcceptRedo_not_min_nonzero :
    (resolveAcceptRedo [2 ^ 55 + 5, 2 ^ 56 + 2 ^ 55] 0 false).1 = 0 ∧
    minNonzeroAccept [2 ^ 55 + 5, 2 ^ 56 + 2 ^ 55] = 5 ∧
    (resolveAcceptRedo [2 ^ 55 + 5, 2 ^ 56 + 2 ^ 55] 0 false).1 ≠
      minNonzeroAccept [2 ^ 55 + 5, 2 ^ 56 + 2 ^ 55] := by
  refine ⟨by decide, by decide, by decide⟩

/-- C4 (amended): after `compile_transition` resolves a state whose
position set has no accepting position of id `0` after (in the position
total order) an accepting position of nonzero id, the state's `accept`
field equals the minimum nonzero accept id over the accepting member
positions (`0` when there is none); without that ordering proviso a
later id-0 redo position resets `accept` to `0`.  Unconditionally,
`redo` is set iff some member position is accepting with subpattern
id `0`. -/
theorem compile_transition_accept_redo (l : List Nat)
    (h : noZeroAfterNonzero l) :
    (resolveAcceptRedo l 0 false).1 = minNonzeroAccept l ∧
    ((resolveAcceptRedo l 0 false).2 = true ↔
      ∃ k ∈ l, pos_is_accept k = true ∧ pos_accepts k = 0) := by
  refine ⟨resolveAcceptRedo_fst l false h, ?_⟩
  rw [resolveAcceptRedo_snd]
  simp [List.any_eq_true]

/-- Witness for `compile_transition_accept_redo` at the set holding the
redo position `2 ^ 55` (accept id 0) followed by the accepting positions
of subpatterns 2 and 3. -/
theorem compile_transition_accept_redo_witness :
    noZeroAfterNonzero [2 ^ 55, 2 ^ 55 + 2, 2 ^ 55 + 3] ∧
    (resolveAcceptRedo [2 ^ 55, 2 ^ 55 + 2, 2 ^ 55 + 3] 0 false).1 =
      minNonzeroAccept [2 ^ 55, 2 ^ 55 + 2, 2 ^ 55 + 3] ∧
    ((resolveAcceptRedo [2 ^ 55, 2 ^ 55 + 2, 2 ^ 55 + 3] 0 false).2 = true ↔
      ∃ k ∈ [2 ^ 55, 2 ^ 55 + 2, 2 ^ 55 + 3],
        pos_is_accept k = true ∧ pos_accepts k = 0) :=
  ⟨by decide,
    (compile_transition_accept_redo _ (by decide)).1,
    (compile_transition_accept_redo _ (by decide)).2⟩

/-- Bit helper: byte 3 of a word is the value of bits 16-23. -/
theorem byte3_eq_div_mod (w : Nat) : byte3 w = w / 2 ^ 16 % 2 ^ 8 := by
  apply Nat.eq_of_testBit_eq
  intro j
  rw [show w / 2 ^ 16 = w >>> 16 from (Nat.shiftRight_eq_div_pow w 16).symm]
  simp only [byte3, show (0x00FF0000 : Nat) = (2 ^ 8 - 1) <<< 16 by decide,
    Nat.testBit_shiftRight, Nat.testBit_and, Nat.testBit_shiftLeft,
    Nat.testBit_mod_two_pow, Nat.testBit_two_pow_sub_one]
  by_cases hj : j < 8
  · simp [hj, Nat.le_add_right, Bool.and_comm]
  · simp [hj]

/-- Bit helper: byte 4 of a word is the value of bits 24-31. -/
theorem byte4_eq_div_mod (w : Nat) : byte4 w = w / 2 ^ 24 % 2 ^ 8 := by
  apply Nat.eq_of_testBit_eq
  intro j
  rw [show w / 2 ^ 24 = w >>> 24 from (Nat.shiftRight_eq_div_pow w 24).symm]
  simp only [byte4, show (0xFF000000 : Nat) = (2 ^ 8 - 1) <<< 24 by decide,
    Nat.testBit_shiftRight, Nat.testBit_and, Nat.testBit_shiftLeft,
    Nat.testBit_mod_two_pow, Nat.testBit_two_pow_sub_one]
  by_cases hj : j < 8
  · simp [hj, Nat.le_add_right, Bool.and_comm]
  · simp [hj]

/-- Bit helper: byte 3 distributes over bitwise or. -/
theorem byte3_or (a b : Nat) : byte3 (a ||| b) = byte3 a ||| byte3 b := by
  apply Nat.eq_of_testBit_eq
  intro j
  simp only [byte3, Nat.testBit_shiftRight, Nat.testBit_and, Nat.testBit_or,
    Bool.and_or_distrib_right]

/-- Bit helper: byte 4 distributes over bitwise or. -/
theorem byte4_or (a b : Nat) : byte4 (a ||| b) = byte4 a ||| byte4 b := by
  apply Nat.eq_of_testBit_eq
  intro j
  simp only [byte4, Nat.testBit_shiftRight, Nat.testBit_and, Nat.testBit_or,
    Bool.and_or_distrib_right]

/-- Bit helper: a number is bounded by its or with anything. -/
theorem left_le_or (a b : Nat) : a ≤ a ||| b :=
  Nat.le_of_testBit (fun i h => by simp [Nat.testBit_or, h])

/-- Bit helper: byte 3 of an opcode word `C ||| (i &&& LONG_INDEX)`. -/
theorem opcode_payload_byte3 (C i : Nat) :
    byte3 (C ||| (i &&& LONG_INDEX)) = byte3 C ||| i % 2 ^ 24 / 2 ^ 16 % 2 ^ 8 := by
  rw [show LONG_INDEX = 2 ^ 24 - 1 by decide, Nat.and_pow_two_sub_one_eq_mod,
    byte3_or, byte3_eq_div_mod (i % 2 ^ 24)]

/-- Bit helper: byte 4 of an opcode word `C ||| (i &&& LONG_INDEX)` is
byte 4 of the opcode constant: the masked payload has no bits there. -/
theorem opcode_payload_byte4 (C i : Nat) :
    byte4 (C ||| (i &&& LONG_INDEX)) = byte4 C := by
  rw [show LONG_INDEX = 2 ^ 24 - 1 by decide, Nat.and_pow_two_sub_one_eq_mod,
    byte4_or, byte4_eq_div_mod (i % 2 ^ 24)]
  have h : i % 2 ^ 24 / 2 ^ 24 = 0 :=
    Nat.div_eq_of_lt (Nat.mod_lt _ (by decide))
  simp [h]

/-- C6 counterexample: the claim fails as stated.  The `HALT` word
`0x00FFFFFF` has byte 3 = `0xFF` and byte 4 = `0`, and the word
`opcode_long` builds (ORing the index with the 16-bit `LONG_MARKER`
rather than with the `LONG` opcode byte) has byte 4 = `0`; neither has
byte 3 strictly below byte 4, and both pass the `is_goto` test. -/
theorem halt_and_long_fail_strict_byte_test :
    ¬(byte3 HALT < byte4 HALT) ∧
    ¬(byte3 (opcode_long 0) < byte4 (opcode_long 0)) ∧
    is_goto HALT = true ∧ is_goto (opcode_long 0) = true := by
  refine ⟨by decide, by decide, by decide, by decide⟩

/-- C6 (amended): `HEAD`, `TAIL`, `TAKE` words with payloads within
their documented maxima and the `REDO` word have byte 3 strictly below
byte 4 (so `is_goto` rejects them), and every `GOTO` word built from a
non-meta range `lo ≤ hi` and an index below `2 ^ 24` has byte 3 at least
byte 4 (so `is_goto` accepts it), while a `GOTO` word on a meta
character with a 16-bit target has byte 3 below byte 4; however the
`HALT` word and every `LONG` word built by `opcode_long` (whose byte 4
is `0` because the index is ORed with the 16-bit `LONG_MARKER` instead
of the `LONG` opcode byte) also satisfy `is_goto`. -/
theorem opcode_byte_discrimination :
    (∀ i, i ≤ 0xFAFFFF → is_goto (opcode_head i) = false) ∧
    (∀ i, i ≤ 0xFAFFFF → is_goto (opcode_tail i) = false) ∧
    (∀ i, i ≤ 0xFDFFFF → is_goto (opcode_take i) = false) ∧
    is_goto REDO = false ∧
    (∀ lo hi index, char_is_meta lo = false → lo ≤ hi → hi ≤ 0xFF →
      index < 2 ^ 24 → is_goto (opcode_goto lo hi index) = true) ∧
    (∀ lo hi index, char_is_meta lo = true → lo ≤ 0x10D → index ≤ 0xFFFF →
      is_goto (opcode_goto lo hi index) = false) ∧
    is_goto HALT = true ∧
    (∀ i, i ≤ 0xFEFFFF → is_goto (opcode_long i) = true) := by
  have hmain : ∀ C i bound : Nat, byte3 C = 0 → i ≤ bound → bound < 2 ^ 24 →
      bound / 2 ^ 16 < byte4 C → is_goto (C ||| (i &&& LONG_INDEX)) = false := by
    intro C i bound h3 hib hb hlt
    have h3' := opcode_payload_byte3 C i
    have h4' := opcode_payload_byte4 C i
    simp only [is_goto, decide_eq_false_iff_not, not_le, h3', h4', h3,
      Nat.zero_or]
    have hmod : i % 2 ^ 24 = i := Nat.mod_eq_of_lt (lt_of_le_of_lt hib hb)
    rw [hmod]
    have hdiv : i / 2 ^ 16 ≤ bound / 2 ^ 16 := Nat.div_le_div_right hib
    have hm : i / 2 ^ 16 % 2 ^ 8 ≤ i / 2 ^ 16 := Nat.mod_le _ _
    omega
  refine ⟨?_, ?_, ?_, by decide, ?_, ?_, by decide, ?_⟩
  · intro i h
    exact hmain HEAD i 0xFAFFFF (by decide) h (by decide) (by decide)
  · intro i h
    exact hmain TAIL i 0xFAFFFF (by decide) h (by decide) (by decide)
  · intro i h
    exact hmain TAKE i 0xFDFFFF (by decide) h (by decide) (by decide)
  · intro lo hi index hmeta hlohi hhi hidx
    have hlo : lo ≤ 0xFF := le_trans hlohi hhi
    have hlo32 : lo * 2 ^ 24 < 2 ^ 32 := by omega
    have hhi32 : hi * 2 ^ 16 < 2 ^ 32 := by omega
    have hword : opcode_goto lo hi index =
        lo * 2 ^ 24 ||| hi * 2 ^ 16 ||| index := by
      rw [opcode_goto, if_neg (by simp [hmeta]), Nat.shiftLeft_eq,
        Nat.shiftLeft_eq, Nat.mod_eq_of_lt hlo32, Nat.mod_eq_of_lt hhi32]
    have e3 : byte3 (lo * 2 ^ 24 ||| hi * 2 ^ 16 ||| index) =
        hi ||| index / 2 ^ 16 % 2 ^ 8 := by
      rw [byte3_or, byte3_or, byte3_eq_div_mod (lo * 2 ^ 24),
        byte3_eq_div_mod (hi * 2 ^ 16), byte3_eq_div_mod index]
      have hx : lo * 2 ^ 24 / 2 ^ 16 % 2 ^ 8 = 0 := by
        have hq : lo * 2 ^ 24 / 2 ^ 16 = lo * 2 ^ 8 := by
          omega
        rw [hq, Nat.mul_mod_left]
      have hy : hi * 2 ^ 16 / 2 ^ 16 % 2 ^ 8 = hi := by
        rw [Nat.mul_div_cancel _ (by decide)]
        omega
      rw [hx, hy, Nat.zero_or]
    have e4 : byte4 (lo * 2 ^ 24 ||| hi * 2 ^ 16 ||| index) = lo := by
      rw [byte4_or, byte4_or, byte4_eq_div_mod (lo * 2 ^ 24),
        byte4_eq_div_mod (hi * 2 ^ 16), byte4_eq_div_mod index]
      have hx : lo * 2 ^ 24 / 2 ^ 24 % 2 ^ 8 = lo := by
        rw [Nat.mul_div_cancel _ (by decide)]
        omega
      have hy : hi * 2 ^ 16 / 2 ^ 24 % 2 ^ 8 = 0 := by
        have hq : hi * 2 ^ 16 / 2 ^ 24 = 0 := Nat.div_eq_of_lt (by omega)
        rw [hq, Nat.zero_mod]
      have hz : index / 2 ^ 24 % 2 ^ 8 = 0 := by
        have hq : index / 2 ^ 24 = 0 := Nat.div_eq_of_lt hidx
        rw [hq, Nat.zero_mod]
      rw [hx, hy, hz, Nat.or_zero, Nat.or_zero]
    simp only [is_goto, hword, e3, e4, decide_eq_true_eq]
    exact le_trans hlohi (left_le_or hi _)
  · intro lo hi index hmeta hlo hidx
    have hword : opcode_goto lo hi index = lo % 256 * 2 ^ 24 ||| index := by
      rw [opcode_goto, if_pos hmeta, Nat.shiftLeft_eq,
        show lo * 2 ^ 24 % 2 ^ 32 = lo % 256 * 2 ^ 24 by omega]
    have hlometa : 0x100 < lo := by
      simpa [char_is_meta] using hmeta
    have e3 : byte3 (lo % 256 * 2 ^ 24 ||| index) = 0 := by
      rw [byte3_or, byte3_eq_div_mod (lo % 256 * 2 ^ 24), byte3_eq_div_mod index]
      have hx : lo % 256 * 2 ^ 24 / 2 ^ 16 % 2 ^ 8 = 0 := by
        have hq : lo % 256 * 2 ^ 24 / 2 ^ 16 = lo % 256 * 2 ^ 8 := by
          omega
        rw [hq, Nat.mul_mod_left]
      have hy : index / 2 ^ 16 % 2 ^ 8 = 0 := by
        have hq : index / 2 ^ 16 = 0 := Nat.div_eq_of_lt (by omega)
        rw [hq, Nat.zero_mod]
      rw [hx, hy, Nat.or_zero]
    have e4 : byte4 (lo % 256 * 2 ^ 24 ||| index) = lo % 256 := by
      rw [byte4_or, byte4_eq_div_mod (lo % 256 * 2 ^ 24), byte4_eq_div_mod index]
      have hx : lo % 256 * 2 ^ 24 / 2 ^ 24 % 2 ^ 8 = lo % 256 := by
        rw [Nat.mul_div_cancel _ (by decide)]
        omega
      have hy : index / 2 ^ 24 % 2 ^ 8 = 0 := by
        have hq : index / 2 ^ 24 = 0 := Nat.div_eq_of_lt (by omega)
        rw [hq, Nat.zero_mod]
      rw [hx, hy, Nat.or_zero]
    simp only [is_goto, hword, e3, e4, decide_eq_false_iff_not, not_le]
    omega
  · intro i _
    have h4 := opcode_payload_byte4 LONG_MARKER i
    simp only [is_goto, opcode_long, h4, decide_eq_true_eq,
      show byte4 LONG_MARKER = 0 by decide]
    exact Nat.zero_le _

/-- Witness for `opcode_byte_discrimination` at concrete payloads and a
concrete byte range. -/
theorem opcode_byte_discrimination_witness :
    is_goto (opcode_head 3) = false ∧ is_goto (opcode_tail 4) = false ∧
    is_goto (opcode_take 5) = false ∧
    is_goto (opcode_goto 97 122 6) = true ∧
    is_goto (opcode_goto 0x107 0x107 8) = false ∧
    is_goto (opcode_long 7) = true :=
  ⟨opcode_byte_discrimination.1 3 (by decide),
    opcode_byte_discrimination.2.1 4 (by decide),
    opcode_byte_discrimination.2.2.1 5 (by decide),
    opcode_byte_discrimination.2.2.2.2.1 97 122 6 (by decide) (by decide)
      (by decide) (by decide),
    opcode_byte_discrimination.2.2.2.2.2.1 0x107 0x107 8 (by decide)
      (by decide) (by decide),
    opcode_byte_discrimination.2.2.2.2.2.2.2 7 (by decide)⟩

/-- C7 (code evaluation): the second counting pass of `encode_dfa` is
triggered by `opcode_count > bitmasks::LONG` with
`LONG = 0xFF000000`, not by a count above `0xFFFF`: at a first-pass
count of `0x10000` the second pass does not run, and for every count the
first pass accepts at all (at most `GOTO_MAX_IDX`, beyond which it
raises `ExceedsLimits`) the second pass never runs. -/
theorem second_pass_never_runs :
    second_pass_runs 0x10000 = false ∧ 0x10000 > 0xFFFF ∧
    ∀ n, valid_goto_index n = true → second_pass_runs n = false := by
  refine ⟨by decide, by decide, ?_⟩
  intro n h
  simp only [valid_goto_index, GOTO_MAX_IDX, decide_eq_true_eq] at h
  simp only [second_pass_runs, LONG, decide_eq_false_iff_not, not_lt]
  omega

/-- Witness for `second_pass_never_runs` at the count `0x20000`, which
the first pass accepts and which is above the claimed `0xFFFF`
threshold. -/
theorem second_pass_never_runs_witness :
    valid_goto_index 0x20000 = true ∧ second_pass_runs 0x20000 = false :=
  ⟨by decide, second_pass_never_runs.2.2 0x20000 (by decide)⟩

/-- C8 (code evaluation): for a state with lookahead head set `{0}` and
no tails, the lookahead loop of `encode_dfa` emits the single word
`0xFC000000` — `opcode_tail 0`, a TAIL word — and no word with the HEAD
high byte `0xFB`: the loop over `[tails, heads]` pushes `opcode_tail`
for the members of both sets, and `opcode_head` is never called. -/
theorem heads_are_emitted_as_tail_words :
    encode_lookahead_words [] [0] = [0xFC000000] ∧
    opcode_head 0 = 0xFB000000 ∧
    (encode_lookahead_words [] [0]).all (fun w => byte4 w != 0xFB) = true := by
  refine ⟨by decide, by decide, by decide⟩

/-- Bit helper: a set bit of a u64-sized value sits below position 64. -/
theorem testBit_lt_64 {x j : Nat} (hx : x < 2 ^ 64)
    (h : x.testBit j = true) : j < 64 := by
  by_contra hj
  have hfalse : x.testBit j = false :=
    Nat.testBit_lt_two_pow
      (lt_of_lt_of_le hx (Nat.pow_le_pow_right (by norm_num) (by omega)))
  rw [hfalse] at h
  exact absurd h (by simp)

/-- Bit helper: the bits of the all-ones u64 word. -/
theorem testBit_u64max (j : Nat) :
    Nat.testBit (2 ^ 64 - 1) j = decide (j < 64) :=
  Nat.testBit_two_pow_sub_one 64 j

/-- Word-level subset test: `b & !a` is zero exactly when every bit of
the u64 `b` is a bit of `a`. -/
theorem sub_word_zero_iff (b a : Nat) (hb : b < 2 ^ 64) :
    b &&& notU64 a = 0 ↔ ∀ j, b.testBit j = true → a.testBit j = true := by
  constructor
  · intro h j hbj
    have hj : j < 64 := testBit_lt_64 hb hbj
    by_contra haj
    have haj' : a.testBit j = false := by
      cases hv : a.testBit j
      · rfl
      · exact absurd hv haj
    have hbit : (b &&& notU64 a).testBit j = true := by
      rw [Nat.testBit_and, hbj, notU64, Nat.testBit_xor, testBit_u64max,
        haj']
      simp [hj]
    rw [h, Nat.zero_testBit] at hbit
    exact absurd hbit (by simp)
  · intro h
    apply Nat.eq_of_testBit_eq
    intro j
    rw [Nat.testBit_and, Nat.zero_testBit]
    cases hbj : b.testBit j
    · simp
    · have haj := h j hbj
      have hj : j < 64 := testBit_lt_64 hb hbj
      rw [notU64, Nat.testBit_xor, testBit_u64max, haj]
      simp [hj]

/-- Method `Chars::contains` reads exactly bit `c % 64` of word `c >>> 6`. -/
theorem contains_iff_testBit (s : Chars) (c : Nat) :
    s.contains c = true ↔ (s.word (c >>> 6)).testBit (c % 64) = true := by
  rw [Chars.contains,
    show (0x3F : Nat) = 2 ^ 6 - 1 by norm_num,
    Nat.and_pow_two_sub_one_eq_mod,
    show (1 : Nat) <<< (c % 2 ^ 6) = 2 ^ (c % 2 ^ 6) by
      rw [Nat.shiftLeft_eq, one_mul],
    Nat.and_two_pow,
    show (2 : Nat) ^ 6 = 64 by norm_num]
  cases hv : (s.word (c >>> 6)).testBit (c % 64)
  · simp [hv]
  · simp [hv]

/-- C9 counterexample: the claim fails as stated.  With `A` the empty
set and `B` the set containing the byte 0, every character contained in
`A` is (vacuously) contained in `B`, yet `A.is_subset(B)` returns
`false`: the implementation computes `B - A` and tests that for
emptiness. -/
theorem empty_is_subset_singleton_false :
    (∀ c, Chars.contains ⟨0, 0, 0, 0, 0⟩ c = true →
      Chars.contains ⟨1, 0, 0, 0, 0⟩ c = true) ∧
    Chars.is_subset ⟨0, 0, 0, 0, 0⟩ ⟨1, 0, 0, 0, 0⟩ = false := by
  constructor
  · intro c h
    exfalso
    have hw : Chars.word ⟨0, 0, 0, 0, 0⟩ (c >>> 6) = 0 := by
      rcases c >>> 6 with _ | _ | _ | _ | _ | n <;> rfl
    rw [Chars.contains, hw] at h
    simp at h
  · decide

/-- The bit of `Chars::contains` at character `64 * i + j` is bit `j` of
word `i`. -/
theorem contains_word_bit (s : Chars) (i j : Nat) (hj : j < 64) :
    s.contains (64 * i + j) = true ↔ (s.word i).testBit j = true := by
  rw [contains_iff_testBit]
  have e1 : (64 * i + j) >>> 6 = i := by
    rw [Nat.shiftRight_eq_div_pow, show (2 : Nat) ^ 6 = 64 by norm_num]
    omega
  have e2 : (64 * i + j) % 64 = j := by omega
  rw [e1, e2]

/-- C9 (amended): for a well-formed `B`, `A.is_subset(B)` returns true
iff every character (byte or meta, in the 320-bit range) contained in
`B` is also contained in `A` — the implementation subtracts the receiver
from the argument and tests the difference for emptiness, so it decides
containment in the direction opposite to the claim. -/
theorem is_subset_iff_reverse_inclusion (A B : Chars) (hB : B.wf) :
    A.is_subset B = true ↔
      ∀ c, c < 320 → B.contains c = true → A.contains c = true := by
  obtain ⟨h0, h1, h2, h3, h4⟩ := hB
  rw [Chars.is_subset, Chars.subAssign, Chars.is_empty]
  simp only [Bool.and_eq_true, beq_iff_eq]
  rw [sub_word_zero_iff _ _ h0, sub_word_zero_iff _ _ h1,
    sub_word_zero_iff _ _ h2, sub_word_zero_iff _ _ h3,
    sub_word_zero_iff _ _ h4]
  constructor
  · rintro ⟨⟨⟨⟨H0, H1⟩, H2⟩, H3⟩, H4⟩ c hc hBc
    have hj : c % 64 < 64 := Nat.mod_lt _ (by norm_num)
    have hcd : 64 * (c / 64) + c % 64 = c := Nat.div_add_mod c 64
    rw [← hcd] at hBc ⊢
    rw [contains_word_bit _ _ _ hj] at hBc ⊢
    have h5 : c / 64 < 5 := by omega
    revert hBc
    generalize c / 64 = i at h5 ⊢
    interval_cases i
    · exact fun hb => H0 _ hb
    · exact fun hb => H1 _ hb
    · exact fun hb => H2 _ hb
    · exact fun hb => H3 _ hb
    · exact fun hb => H4 _ hb
  · intro H
    refine ⟨⟨⟨⟨?_, ?_⟩, ?_⟩, ?_⟩, ?_⟩
    · intro j hbj
      have hj : j < 64 := testBit_lt_64 h0 hbj
      exact (contains_word_bit A 0 j hj).mp
        (H (64 * 0 + j) (by omega)
          ((contains_word_bit B 0 j hj).mpr hbj))
    · intro j hbj
      have hj : j < 64 := testBit_lt_64 h1 hbj
      exact (contains_word_bit A 1 j hj).mp
        (H (64 * 1 + j) (by omega)
          ((contains_word_bit B 1 j hj).mpr hbj))
    · intro j hbj
      have hj : j < 64 := testBit_lt_64 h2 hbj
      exact (contains_word_bit A 2 j hj).mp
        (H (64 * 2 + j) (by omega)
          ((contains_word_bit B 2 j hj).mpr hbj))
    · intro j hbj
      have hj : j < 64 := testBit_lt_64 h3 hbj
      exact (contains_word_bit A 3 j hj).mp
        (H (64 * 3 + j) (by omega)
          ((contains_word_bit B 3 j hj).mpr hbj))
    · intro j hbj
      have hj : j < 64 := testBit_lt_64 h4 hbj
      exact (contains_word_bit A 4 j hj).mp
        (H (64 * 4 + j) (by omega)
          ((contains_word_bit B 4 j hj).mpr hbj))

/-- Witness for `is_subset_iff_reverse_inclusion` at
`A = {byte 0, byte 1}` and `B = {byte 0}`, where the reverse inclusion
holds and the subset call answers `true`. -/
theorem is_subset_iff_reverse_inclusion_witness :
    Chars.wf ⟨1, 0, 0, 0, 0⟩ ∧
    (Chars.is_subset ⟨3, 0, 0, 0, 0⟩ ⟨1, 0, 0, 0, 0⟩ = true ↔
      ∀ c, c < 320 → Chars.contains ⟨1, 0, 0, 0, 0⟩ c = true →
        Chars.contains ⟨3, 0, 0, 0, 0⟩ c = true) :=
  ⟨by constructor <;> norm_num,
    is_subset_iff_reverse_inclusion ⟨3, 0, 0, 0, 0⟩ ⟨1, 0, 0, 0, 0⟩
      (by constructor <;> norm_num)⟩

end Lesk
